import Mathlib

/-!
Shallow embedding of the `pythonicfmt` formatting core (`src/formatter.rs`).

The Rust code works on a buffer split into lines (`str::lines`), runs a
line-collapsing pass (`Formatter::collapse_lines`), then a reverse
per-line repositioning pass (`Formatter::process_line`), and rejoins the
lines with `"\n"`.  Strings are modelled as `List Char`; a Rust panic
(index underflow / out-of-bounds) is modelled as `Option.none`.
-/

set_option maxRecDepth 8000

namespace Pfmt

/-- Junk characters, from `const JUNK_CHARS: &str = "{};"`. -/
def isJunk (c : Char) : Bool := decide (c = '{' ∨ c = '}' ∨ c = ';')

/-- Code points matched by the regex class `\s` (Unicode White_Space),
used by `WS_REGEX`. -/
def wsNats : List Nat :=
  [9, 10, 11, 12, 13, 32, 133, 160, 5760,
   8192, 8193, 8194, 8195, 8196, 8197, 8198, 8199, 8200, 8201, 8202,
   8232, 8233, 8239, 8287, 12288]

/-- Whitespace predicate: the regex `\s`. -/
def isWs (c : Char) : Bool := decide (c.toNat ∈ wsNats)

/-- Character class `[\s{};]` built in `BASE_JUNK_WS_REGEX`. -/
def isCls (c : Char) : Bool := isWs c || isJunk c

/-- Model of `WS_REGEX.replace_all(s, "")`: remove all whitespace. -/
def stripWs (l : List Char) : List Char := l.filter (fun c => !isWs c)

/-- Line containing no junk characters at all. -/
def noJunk (l : List Char) : Bool := l.all (fun c => !isJunk c)

/-- Test in `collapse_lines`: whitespace-stripped content is non-empty and
consists only of junk characters. -/
def junkOnly (l : List Char) : Bool :=
  !(stripWs l).isEmpty && (stripWs l).all isJunk

/-- Loop body of `Formatter::collapse_lines`, with the current previous
line held in `a`: a junk-only line is whitespace-stripped, appended to the
previous line and removed, and the next line is examined against the same
(grown) previous line. -/
def collapseAux (a : List Char) : List (List Char) → List (List Char)
  | [] => [a]
  | b :: rest =>
    if junkOnly b then collapseAux (a ++ stripWs b) rest
    else a :: collapseAux b rest

/-- Model of `Formatter::collapse_lines` (scans from the second line on;
the first line is only ever a merge target). -/
def collapse : List (List Char) → List (List Char)
  | [] => []
  | a :: rest => collapseAux a rest

/-- Model of `START_JUNK_WS_REGEX.captures` on a line: the regex is
`^\s+([{};][\s{};]*)`, so it matches iff the line has a non-empty leading
whitespace run whose first following character is junk; the capture group
is the maximal run of junk-and-whitespace starting at that junk character.
Returns (leading whitespace, capture group, remainder). -/
def startSplit (l : List Char) : Option (List Char × List Char × List Char) :=
  let p := l.takeWhile isWs
  let r := l.dropWhile isWs
  match p, r with
  | [], _ => none
  | _ :: _, [] => none
  | _ :: _, c :: _ =>
    if isJunk c then some (p, r.takeWhile isCls, r.dropWhile isCls)
    else none

/-- The line after `line.replace_range(junk_and_ws.range(), "")` for the
start-of-line capture (the leading whitespace itself is kept). -/
def afterStart (l : List Char) : List Char :=
  match startSplit l with
  | some (p, _, rest) => p ++ rest
  | none => l

/-- The junk staged for the previous line by the start-of-line step
(`WS_REGEX.replace_all(junk_and_ws.as_str(), "")`). -/
def stagedOf (l : List Char) : Option (List Char) :=
  match startSplit l with
  | some (_, cap, _) => some (stripWs cap)
  | none => none

/-- Model of `END_JUNK_WS_REGEX.find`: the maximal trailing run of
junk-and-whitespace characters (`[\s{};]+$`), empty when there is none. -/
def endRun (l : List Char) : List Char := (l.reverse.takeWhile isCls).reverse

/-- The part of the line before the trailing junk-and-whitespace run. -/
def endPre (l : List Char) : List Char := (l.reverse.dropWhile isCls).reverse

/-- Model of `Formatter::process_line` acting on one line: returns the new
line and the junk to append to the previous line (`none` when nothing was
staged or when the early `return` for a pure-whitespace trailing run
discarded the staged junk). -/
def processLine (jc : Nat) (l : List Char) : List Char × Option (List Char) :=
  let l1 := afterStart l
  let r := endRun l1
  if r.isEmpty then (l1, stagedOf l)
  else if (stripWs r).isEmpty then (l1, none)
  else
    let u := endPre l1
    (u ++ List.replicate (jc - u.length) ' ' ++ stripWs r, stagedOf l)

/-- Apply a pending staged append (`lines[idx - 1] += modification`). -/
def appendOpt (a : List Char) : Option (List Char) → List Char
  | some j => a ++ j
  | none => a

/-- The reverse loop of `Formatter::format`: lines are processed from the
last to the first; junk staged by a line is appended to its predecessor
before the predecessor is itself processed.  The second component is the
append still pending for the (non-existent) line before the first one:
in Rust `lines[idx - 1]` with `idx = 0`, a panic. -/
def pass2 (jc : Nat) : List (List Char) → List (List Char) × Option (List Char)
  | [] => ([], none)
  | a :: rest =>
    let res := pass2 jc rest
    let pr := processLine jc (appendOpt a res.2)
    (pr.1 :: res.1, pr.2)

/-- Model of `str::lines`: split on `'\n'`; every `'\n'`-terminated
segment has one trailing `'\r'` stripped; a final empty segment
(from a terminating newline) is dropped. `splitNl` gives the raw
`'\n'`-separated segments. -/
def splitNl : List Char → List (List Char)
  | [] => [[]]
  | c :: rest =>
    if c = '\n' then [] :: splitNl rest
    else
      match splitNl rest with
      | [] => [[c]]
      | h :: t => (c :: h) :: t

/-- Strip a single trailing carriage return. -/
def stripCr (l : List Char) : List Char :=
  match l.reverse with
  | [] => []
  | c :: t => if c = '\r' then t.reverse else l

/-- Post-process the `splitNl` segments as `str::lines` does: all segments
but the last were `'\n'`-terminated, so they get `stripCr`; the last
segment is dropped when empty and otherwise kept verbatim. -/
def linesOfAux : List (List Char) → List (List Char)
  | [] => []
  | [last] => if last.isEmpty then [] else [last]
  | s :: rest => stripCr s :: linesOfAux rest

/-- Model of `content.lines().map(to_string).collect()`. -/
def linesOf (x : List Char) : List (List Char) :=
  if x.isEmpty then [] else linesOfAux (splitNl x)

/-- Model of `lines.join("\n")`. -/
def joinLines : List (List Char) → List Char
  | [] => []
  | [a] => a
  | a :: rest => a ++ '\n' :: joinLines rest

/-- The two passes of `Formatter::format` on the line sequence.  `none`
models the panics: `lines.len() - 1` underflows on an empty sequence, and
a staged append left over at the first line indexes `lines[idx - 1]` with
`idx = 0`. -/
def formatLines (jc : Nat) (ls : List (List Char)) : Option (List (List Char)) :=
  match ls with
  | [] => none
  | a :: rest =>
    let res := pass2 jc (collapse (a :: rest))
    match res.2 with
    | some _ => none
    | none => some res.1

/-- Model of `Formatter::format` with configuration `junk_column = jc`:
split into lines, collapse, reposition in reverse, rejoin. -/
def format (jc : Nat) (x : List Char) : Option (List Char) :=
  (formatLines jc (linesOf x)).map joinLines

/-- The `Default` configuration: `junk_column = 120`. -/
def formatD (x : List Char) : Option (List Char) := format 120 x

/-- Shape of a line made of junk-free content followed by pure junk (the
form a collapsed successor line can take once merged and staged junk has
been appended to it). -/
def qShape (t : List Char) : Prop :=
  ∃ s J, t = s ++ J ∧ noJunk s = true ∧ J.all isJunk = true

/-- Number of occurrences of a character across a line sequence. -/
def sumCount (c : Char) (L : List (List Char)) : Nat :=
  (L.map (fun l => l.count c)).sum

/-- Number of occurrences of a character in an optional staged string. -/
def optCount (c : Char) : Option (List Char) → Nat
  | some j => j.count c
  | none => 0

/-!  Character-class facts.  -/

theorem junk_not_ws {c : Char} (h : isJunk c = true) : isWs c = false := by
  have h' := of_decide_eq_true h
  rcases h' with rfl | rfl | rfl <;> decide

theorem ws_not_junk {c : Char} (h : isWs c = true) : isJunk c = false := by
  cases hj : isJunk c
  · rfl
  · rw [junk_not_ws hj] at h
    exact absurd h (by simp)

theorem cls_of_junk {c : Char} (h : isJunk c = true) : isCls c = true := by
  simp [isCls, h]

theorem cls_of_ws {c : Char} (h : isWs c = true) : isCls c = true := by
  simp [isCls, h]

theorem junk_of_cls_not_ws {c : Char} (h : isCls c = true) (hw : isWs c = false) :
    isJunk c = true := by
  simpa [isCls, hw] using h

theorem ws_of_cls_not_junk {c : Char} (h : isCls c = true) (hj : isJunk c = false) :
    isWs c = true := by
  simpa [isCls, hj] using h

theorem not_junk_of_not_cls {c : Char} (h : isCls c = false) : isJunk c = false := by
  cases hj : isJunk c
  · rfl
  · rw [cls_of_junk hj] at h
    exact absurd h (by simp)

/-!  Generic takeWhile and dropWhile facts.  -/

theorem takeWhile_all {α : Type} (p : α → Bool) (l : List α) :
    (l.takeWhile p).all p = true := by
  induction l with
  | nil => rfl
  | cons a t ih => cases hp : p a <;> simp [List.takeWhile_cons, hp, ih]

theorem takeWhile_eq_self_all {α : Type} {p : α → Bool} {l : List α}
    (h : l.all p = true) : l.takeWhile p = l := by
  induction l with
  | nil => rfl
  | cons a t ih =>
    simp only [List.all_cons, Bool.and_eq_true] at h
    simp [List.takeWhile_cons, h.1, ih h.2]

theorem dropWhile_eq_nil_all {α : Type} {p : α → Bool} {l : List α}
    (h : l.all p = true) : l.dropWhile p = [] := by
  induction l with
  | nil => rfl
  | cons a t ih =>
    simp only [List.all_cons, Bool.and_eq_true] at h
    simp [List.dropWhile_cons, h.1, ih h.2]

theorem takeWhile_append_all {α : Type} {p : α → Bool} {l₁ : List α} (l₂ : List α)
    (h : l₁.all p = true) : (l₁ ++ l₂).takeWhile p = l₁ ++ l₂.takeWhile p := by
  induction l₁ with
  | nil => simp
  | cons a t ih =>
    simp only [List.all_cons, Bool.and_eq_true] at h
    simp [List.takeWhile_cons, h.1, ih h.2]

theorem dropWhile_append_all {α : Type} {p : α → Bool} {l₁ : List α} (l₂ : List α)
    (h : l₁.all p = true) : (l₁ ++ l₂).dropWhile p = l₂.dropWhile p := by
  induction l₁ with
  | nil => simp
  | cons a t ih =>
    simp only [List.all_cons, Bool.and_eq_true] at h
    simp [List.dropWhile_cons, h.1, ih h.2]

theorem dropWhile_ne_nil_of_not_all {α : Type} {p : α → Bool} {l : List α}
    (h : l.all p = false) : l.dropWhile p ≠ [] := by
  induction l with
  | nil => simp at h
  | cons a t ih =>
    cases hp : p a
    · simp [List.dropWhile_cons, hp]
    · simp only [List.all_cons, hp, Bool.true_and] at h
      simp [List.dropWhile_cons, hp, ih h]

theorem dropWhile_append_ne {α : Type} {p : α → Bool} {l₁ : List α} (l₂ : List α)
    (h : l₁.dropWhile p ≠ []) :
    (l₁ ++ l₂).dropWhile p = l₁.dropWhile p ++ l₂ := by
  induction l₁ with
  | nil => simp at h
  | cons a t ih =>
    cases hp : p a
    · simp [List.dropWhile_cons, hp]
    · rw [List.dropWhile_cons_of_pos hp] at h
      simp [List.dropWhile_cons, hp, ih h]

theorem head_dropWhile_false {α : Type} {p : α → Bool} {l : List α} {c : α}
    {t : List α} (h : l.dropWhile p = c :: t) : p c = false := by
  induction l with
  | nil => simp at h
  | cons a t' ih =>
    cases hp : p a
    · rw [List.dropWhile_cons_of_neg (by simp [hp])] at h
      cases h
      exact hp
    · rw [List.dropWhile_cons_of_pos hp] at h
      exact ih h

theorem mem_of_mem_takeWhile {α : Type} {p : α → Bool} {l : List α} {c : α}
    (h : c ∈ l.takeWhile p) : c ∈ l := by
  induction l with
  | nil => simp at h
  | cons a t ih =>
    cases hp : p a
    · rw [List.takeWhile_cons_of_neg (by simp [hp])] at h
      simp at h
    · rw [List.takeWhile_cons_of_pos hp] at h
      rcases List.mem_cons.mp h with rfl | h'
      · exact List.mem_cons_self _ _
      · exact List.mem_cons_of_mem _ (ih h')

theorem mem_of_mem_dropWhile {α : Type} {p : α → Bool} {l : List α} {c : α}
    (h : c ∈ l.dropWhile p) : c ∈ l := by
  induction l with
  | nil => simp at h
  | cons a t ih =>
    cases hp : p a
    · rw [List.dropWhile_cons_of_neg (by simp [hp])] at h
      exact h
    · rw [List.dropWhile_cons_of_pos hp] at h
      exact List.mem_cons_of_mem _ (ih h)

/-!  Facts about the trailing junk-and-whitespace run.  -/

theorem endPre_append_endRun (l : List Char) : endPre l ++ endRun l = l := by
  unfold endPre endRun
  rw [← List.reverse_append, List.takeWhile_append_dropWhile, List.reverse_reverse]

theorem endRun_all_cls (l : List Char) : (endRun l).all isCls = true := by
  unfold endRun
  rw [List.all_reverse]
  exact takeWhile_all _ _

theorem mem_of_mem_endRun {l : List Char} {c : Char} (h : c ∈ endRun l) : c ∈ l := by
  unfold endRun at h
  rw [List.mem_reverse] at h
  have := mem_of_mem_takeWhile h
  rwa [List.mem_reverse] at this

theorem endPre_reverse_shape (l : List Char) :
    endPre l = [] ∨
      ∃ d t, (endPre l).reverse = d :: t ∧ isCls d = false ∧ d ∈ endPre l := by
  unfold endPre
  cases hd : l.reverse.dropWhile isCls with
  | nil => left; simp [hd]
  | cons c t =>
    right
    refine ⟨c, t, by simp [hd], head_dropWhile_false hd, by simp [hd]⟩

theorem endRun_append {u v : List Char} (hv : v.all isCls = true)
    (hu : u = [] ∨ ∃ d t, u.reverse = d :: t ∧ isCls d = false) :
    endRun (u ++ v) = v ∧ endPre (u ++ v) = u := by
  unfold endRun endPre
  rw [List.reverse_append]
  have hv' : v.reverse.all isCls = true := by rwa [List.all_reverse]
  rw [takeWhile_append_all _ hv', dropWhile_append_all _ hv']
  rcases hu with rfl | ⟨d, t, hrev, hcls⟩
  · simp
  · rw [hrev, List.takeWhile_cons_of_neg (by simp [hcls]),
      List.dropWhile_cons_of_neg (by simp [hcls]), ← hrev]
    simp

theorem endRun_eq_nil_shape {l : List Char} (h : endRun l = []) :
    l = [] ∨ ∃ d t, l.reverse = d :: t ∧ isCls d = false := by
  unfold endRun at h
  have h' : l.reverse.takeWhile isCls = [] := by
    have := congrArg List.reverse h
    simpa using this
  cases hrev : l.reverse with
  | nil =>
    left
    have := congrArg List.reverse hrev
    simpa using this
  | cons c t =>
    right
    refine ⟨c, t, rfl, ?_⟩
    rw [hrev] at h'
    cases hc : isCls c
    · rfl
    · rw [List.takeWhile_cons_of_pos hc] at h'
      simp at h'

/-!  Inversion for the start-of-line regex model.  -/

theorem startSplit_some {l p cap rest : List Char}
    (h : startSplit l = some (p, cap, rest)) :
    p = l.takeWhile isWs ∧ p ≠ [] ∧
      cap = (l.dropWhile isWs).takeWhile isCls ∧
      rest = (l.dropWhile isWs).dropWhile isCls ∧
      ∃ c cs, l.dropWhile isWs = c :: cs ∧ isJunk c = true := by
  unfold startSplit at h
  cases hp : l.takeWhile isWs with
  | nil => rw [hp] at h; exact absurd h (by simp)
  | cons a t =>
    cases hr : l.dropWhile isWs with
    | nil => rw [hp, hr] at h; exact absurd h (by simp)
    | cons c cs =>
      simp only [hp, hr] at h
      cases hj : isJunk c
      · rw [hj] at h
        exact absurd h (by simp)
      · rw [hj] at h
        simp only [if_true] at h
        injection h with h1
        injection h1 with ha hb
        injection hb with hb hc
        refine ⟨ha.symm, by simp [← ha], hb.symm, hc.symm, c, cs, rfl, hj⟩

theorem startSplit_none_of_noJunk {l : List Char} (h : noJunk l = true) :
    startSplit l = none := by
  cases hss : startSplit l with
  | none => rfl
  | some val =>
    exfalso
    obtain ⟨p, cap, rest⟩ := val
    obtain ⟨-, -, -, -, c, cs, hdw, hj⟩ := startSplit_some hss
    have hc : c ∈ l := mem_of_mem_dropWhile (hdw ▸ List.mem_cons_self c cs)
    have := List.all_eq_true.mp h c hc
    simp [hj] at this

theorem afterStart_of_none {l : List Char} (h : startSplit l = none) :
    afterStart l = l := by
  unfold afterStart
  rw [h]

theorem stagedOf_of_none {l : List Char} (h : startSplit l = none) :
    stagedOf l = none := by
  unfold stagedOf
  rw [h]

theorem afterStart_of_some {l p cap rest : List Char}
    (h : startSplit l = some (p, cap, rest)) : afterStart l = p ++ rest := by
  unfold afterStart
  rw [h]

theorem stagedOf_of_some {l p cap rest : List Char}
    (h : startSplit l = some (p, cap, rest)) : stagedOf l = some (stripWs cap) := by
  unfold stagedOf
  rw [h]

/-!  Facts about whitespace stripping.  -/

theorem mem_stripWs {l : List Char} {c : Char} (h : c ∈ stripWs l) :
    c ∈ l ∧ isWs c = false := by
  unfold stripWs at h
  have h1 := List.of_mem_filter h
  exact ⟨List.mem_of_mem_filter h, by simpa using h1⟩

theorem stripWs_all_junk_of_cls {l : List Char} (h : l.all isCls = true) :
    (stripWs l).all isJunk = true := by
  rw [List.all_eq_true]
  intro c hc
  obtain ⟨hcl, hw⟩ := mem_stripWs hc
  exact junk_of_cls_not_ws (List.all_eq_true.mp h c hcl) hw

theorem stripWs_eq_nil_of_all_ws {l : List Char} (h : l.all isWs = true) :
    stripWs l = [] := by
  unfold stripWs
  rw [List.filter_eq_nil_iff]
  intro c hc
  simp [List.all_eq_true.mp h c hc]

theorem all_ws_of_stripWs_eq_nil {l : List Char} (h : stripWs l = []) :
    l.all isWs = true := by
  rw [List.all_eq_true]
  intro c hc
  unfold stripWs at h
  rw [List.filter_eq_nil_iff] at h
  have h1 := h c hc
  simpa using h1

theorem stripWs_append (l₁ l₂ : List Char) :
    stripWs (l₁ ++ l₂) = stripWs l₁ ++ stripWs l₂ := by
  unfold stripWs
  rw [List.filter_append]

/-!  Branch lemmas for the per-line repositioning step.  -/

theorem processLine_of_endRun_nil (jc : Nat) {l : List Char}
    (h : endRun (afterStart l) = []) :
    processLine jc l = (afterStart l, stagedOf l) := by
  simp [processLine, h]

theorem processLine_early (jc : Nat) {l : List Char}
    (h1 : endRun (afterStart l) ≠ []) (h2 : stripWs (endRun (afterStart l)) = []) :
    processLine jc l = (afterStart l, none) := by
  have h1' : (endRun (afterStart l)).isEmpty = false := by
    cases he : endRun (afterStart l) with
    | nil => exact absurd he h1
    | cons a t => rfl
  simp [processLine, h1', h2]

theorem processLine_reposition (jc : Nat) {l : List Char}
    (h : stripWs (endRun (afterStart l)) ≠ []) :
    processLine jc l =
      (endPre (afterStart l) ++
        List.replicate (jc - (endPre (afterStart l)).length) ' ' ++
        stripWs (endRun (afterStart l)), stagedOf l) := by
  have h1 : endRun (afterStart l) ≠ [] := by
    intro he
    apply h
    rw [he]
    rfl
  have h1' : (endRun (afterStart l)).isEmpty = false := by
    cases he : endRun (afterStart l) with
    | nil => exact absurd he h1
    | cons a t => rfl
  have h2' : (stripWs (endRun (afterStart l))).isEmpty = false := by
    cases he : stripWs (endRun (afterStart l)) with
    | nil => exact absurd he h
    | cons a t => rfl
  simp [processLine, h1', h2']

theorem processLine_noJunk (jc : Nat) {l : List Char} (h : noJunk l = true) :
    processLine jc l = (l, none) := by
  have hss := startSplit_none_of_noJunk h
  have has : afterStart l = l := afterStart_of_none hss
  have hst : stagedOf l = none := stagedOf_of_none hss
  by_cases he : endRun (afterStart l) = []
  · rw [processLine_of_endRun_nil jc he, has, hst]
  · have h2 : stripWs (endRun (afterStart l)) = [] := by
      apply stripWs_eq_nil_of_all_ws
      rw [List.all_eq_true]
      intro c hc
      have hcl : c ∈ l := by
        rw [← has]
        exact mem_of_mem_endRun hc
      have hcls := List.all_eq_true.mp (endRun_all_cls (afterStart l)) c hc
      have hj : isJunk c = false := by simpa using List.all_eq_true.mp h c hcl
      exact ws_of_cls_not_junk hcls hj
    rw [processLine_early jc he h2, has]

theorem stagedOf_all_junk {l j : List Char} (h : stagedOf l = some j) :
    j.all isJunk = true := by
  cases hss : startSplit l with
  | none =>
    rw [stagedOf_of_none hss] at h
    exact absurd h (by simp)
  | some val =>
    obtain ⟨p, cap, rest⟩ := val
    rw [stagedOf_of_some hss] at h
    injection h with h1
    obtain ⟨-, -, hcap, -, -⟩ := startSplit_some hss
    rw [← h1]
    apply stripWs_all_junk_of_cls
    rw [hcap]
    exact takeWhile_all _ _

theorem processLine_snd_cases (jc : Nat) (l : List Char) :
    (processLine jc l).2 = stagedOf l ∨ (processLine jc l).2 = none := by
  by_cases h2 : stripWs (endRun (afterStart l)) = []
  · by_cases he : endRun (afterStart l) = []
    · left
      rw [processLine_of_endRun_nil jc he]
    · right
      rw [processLine_early jc he h2]
  · left
    rw [processLine_reposition jc h2]

theorem processLine_snd_all_junk {jc : Nat} {l j : List Char}
    (h : (processLine jc l).2 = some j) : j.all isJunk = true := by
  rcases processLine_snd_cases jc l with hc | hc
  · exact stagedOf_all_junk (hc ▸ h)
  · rw [hc] at h
    exact absurd h (by simp)

theorem processLine_snd_none_of_qShape (jc : Nat) {t : List Char} (h : qShape t) :
    (processLine jc t).2 = none := by
  obtain ⟨s, J, rfl, hs, hJ⟩ := h
  cases hss : startSplit (s ++ J) with
  | none =>
    rcases processLine_snd_cases jc (s ++ J) with hc | hc
    · rw [hc, stagedOf_of_none hss]
    · exact hc
  | some val =>
    obtain ⟨p, cap, rest⟩ := val
    obtain ⟨hp, hpne, hcap, hrest, c, cs, hdw, hj⟩ := startSplit_some hss
    have hsws : s.all isWs = true := by
      cases hb : s.all isWs
      · exfalso
        have hdne := dropWhile_ne_nil_of_not_all hb
        cases hds : s.dropWhile isWs with
        | nil => exact hdne hds
        | cons d ds =>
          have hfull : (s ++ J).dropWhile isWs = d :: (ds ++ J) := by
            rw [dropWhile_append_ne _ hdne, hds]
            rfl
          rw [hdw] at hfull
          injection hfull with hcd
          have hdmem : d ∈ s := mem_of_mem_dropWhile (hds ▸ List.mem_cons_self d ds)
          have hnj : isJunk d = false := by simpa using List.all_eq_true.mp hs d hdmem
          rw [hcd, hnj] at hj
          exact absurd hj (by simp)
      · rfl
    have hJtw : J.takeWhile isWs = [] := by
      cases J with
      | nil => rfl
      | cons a t =>
        have ha := List.all_eq_true.mp hJ a (List.mem_cons_self a t)
        rw [List.takeWhile_cons_of_neg]
        simp [junk_not_ws ha]
    have hJdw : J.dropWhile isWs = J := by
      cases J with
      | nil => rfl
      | cons a t =>
        have ha := List.all_eq_true.mp hJ a (List.mem_cons_self a t)
        rw [List.dropWhile_cons_of_neg]
        simp [junk_not_ws ha]
    have hJcls : J.all isCls = true := by
      rw [List.all_eq_true]
      intro a ha
      exact cls_of_junk (List.all_eq_true.mp hJ a ha)
    have hpeq : p = s := by
      rw [hp, takeWhile_append_all _ hsws, hJtw, List.append_nil]
    have hreq : (s ++ J).dropWhile isWs = J := by
      rw [dropWhile_append_all _ hsws, hJdw]
    have hrestJ : rest = [] := by
      rw [hrest, hreq, dropWhile_eq_nil_all hJcls]
    have hasteq : afterStart (s ++ J) = s := by
      rw [afterStart_of_some hss, hrestJ, List.append_nil, hpeq]
    have hsne : s ≠ [] := hpeq ▸ hpne
    have hendrun : endRun s = s := by
      unfold endRun
      have hall : s.reverse.all isCls = true := by
        rw [List.all_reverse, List.all_eq_true]
        intro a ha
        exact cls_of_ws (List.all_eq_true.mp hsws a ha)
      rw [takeWhile_eq_self_all hall, List.reverse_reverse]
    have h1 : endRun (afterStart (s ++ J)) ≠ [] := by
      rw [hasteq, hendrun]
      exact hsne
    have h2 : stripWs (endRun (afterStart (s ++ J))) = [] := by
      rw [hasteq, hendrun]
      exact stripWs_eq_nil_of_all_ws hsws
    rw [processLine_early jc h1 h2]

/-!  Facts about the reverse repositioning pass.  -/

theorem pass2_cons (jc : Nat) (a : List Char) (rest : List (List Char)) :
    pass2 jc (a :: rest) =
      ((processLine jc (appendOpt a (pass2 jc rest).2)).1 :: (pass2 jc rest).1,
        (processLine jc (appendOpt a (pass2 jc rest).2)).2) := rfl

theorem pass2_snd_all_junk {jc : Nat} {cs : List (List Char)} {j : List Char}
    (h : (pass2 jc cs).2 = some j) : j.all isJunk = true := by
  cases cs with
  | nil => exact absurd h (by simp [pass2])
  | cons a rest =>
    rw [pass2_cons] at h
    exact processLine_snd_all_junk h

theorem appendOpt_qShape {t : List Char} {o : Option (List Char)} (hq : qShape t)
    (ho : ∀ j, o = some j → j.all isJunk = true) : qShape (appendOpt t o) := by
  cases o with
  | none => exact hq
  | some j =>
    obtain ⟨s, J, ht, hs, hJ⟩ := hq
    refine ⟨s, J ++ j, ?_, hs, ?_⟩
    · rw [show appendOpt t (some j) = t ++ j from rfl, ht, List.append_assoc]
    · rw [List.all_append, Bool.and_eq_true]
      exact ⟨hJ, ho j rfl⟩

theorem pass2_snd_none_of_qShape (jc : Nat) {t : List Char}
    (rest : List (List Char)) (hq : qShape t) :
    (pass2 jc (t :: rest)).2 = none := by
  rw [pass2_cons]
  apply processLine_snd_none_of_qShape
  exact appendOpt_qShape hq (fun j hj => pass2_snd_all_junk hj)

theorem pass2_fst_mem {jc : Nat} {cs : List (List Char)} {t : List Char}
    (h : t ∈ (pass2 jc cs).1) : ∃ s, t = (processLine jc s).1 := by
  induction cs with
  | nil => simp [pass2] at h
  | cons a rest ih =>
    rw [pass2_cons] at h
    rcases List.mem_cons.mp h with rfl | h'
    · exact ⟨appendOpt a (pass2 jc rest).2, rfl⟩
    · exact ih h'

theorem pass2_preserves (jc : Nat) :
    ∀ (cs : List (List Char)) (k : Nat) (l : List Char),
    cs[k]? = some l → noJunk l = true →
    (cs[k+1]? = none ∨ ∃ t, cs[k+1]? = some t ∧ qShape t) →
    (pass2 jc cs).1[k]? = some l := by
  intro cs
  induction cs with
  | nil =>
    intro k l hk hl hsucc
    simp at hk
  | cons a rest ih =>
    intro k l hk hl hsucc
    cases k with
    | zero =>
      rw [List.getElem?_cons_zero] at hk
      injection hk with hk
      subst hk
      have happ : (pass2 jc rest).2 = none := by
        cases rest with
        | nil => rfl
        | cons t0 rest' =>
          rcases hsucc with hn | ⟨t, ht, hq⟩
          · rw [List.getElem?_cons_succ, List.getElem?_cons_zero] at hn
            exact absurd hn (by simp)
          · rw [List.getElem?_cons_succ, List.getElem?_cons_zero] at ht
            injection ht with ht
            subst ht
            exact pass2_snd_none_of_qShape jc rest' hq
      rw [pass2_cons, List.getElem?_cons_zero, happ,
        show appendOpt a none = a from rfl, processLine_noJunk jc hl]
    | succ k' =>
      rw [List.getElem?_cons_succ] at hk
      rw [pass2_cons, List.getElem?_cons_succ]
      apply ih k' l hk hl
      rcases hsucc with hn | ⟨t, ht, hq⟩
      · left
        rw [List.getElem?_cons_succ] at hn
        exact hn
      · right
        rw [List.getElem?_cons_succ] at ht
        exact ⟨t, ht, hq⟩

/-!  Facts about the collapsing pass.  -/

theorem junkOnly_has_junk {b : List Char} (h : junkOnly b = true) :
    ∃ c ∈ b, isJunk c = true := by
  unfold junkOnly at h
  rw [Bool.and_eq_true] at h
  obtain ⟨hne, hall⟩ := h
  cases hsb : stripWs b with
  | nil => rw [hsb] at hne; exact absurd hne (by simp)
  | cons c cs =>
    have hc : c ∈ stripWs b := by rw [hsb]; exact List.mem_cons_self _ _
    exact ⟨c, (mem_stripWs hc).1, List.all_eq_true.mp hall c hc⟩

theorem junkOnly_eq_false_of_noJunk {b : List Char} (h : noJunk b = true) :
    junkOnly b = false := by
  cases hb : junkOnly b
  · rfl
  · obtain ⟨c, hc, hj⟩ := junkOnly_has_junk hb
    have := List.all_eq_true.mp h c hc
    rw [hj] at this
    exact absurd this (by simp)

theorem collapseAux_head (rest : List (List Char)) (b : List Char) :
    ∃ J tl, J.all isJunk = true ∧ collapseAux b rest = (b ++ J) :: tl := by
  induction rest generalizing b with
  | nil => exact ⟨[], [], by simp, by simp [collapseAux]⟩
  | cons c rest' ih =>
    by_cases hc : junkOnly c = true
    · obtain ⟨J', tl, hJ', heq⟩ := ih (b ++ stripWs c)
      refine ⟨stripWs c ++ J', tl, ?_, ?_⟩
      · rw [List.all_append, Bool.and_eq_true]
        refine ⟨?_, hJ'⟩
        unfold junkOnly at hc
        rw [Bool.and_eq_true] at hc
        exact hc.2
      · rw [show collapseAux b (c :: rest') = collapseAux (b ++ stripWs c) rest'
          from by simp [collapseAux, hc], heq, List.append_assoc]
    · refine ⟨[], collapseAux c rest', ?_, ?_⟩
      · simp
      · rw [show collapseAux b (c :: rest') = b :: collapseAux c rest'
          from by simp [collapseAux, hc]]
        simp

theorem collapseAux_preserves :
    ∀ (rest : List (List Char)) (a : List Char) (i : Nat) (l : List Char),
    (a :: rest)[i]? = some l → noJunk l = true →
    ((a :: rest)[i+1]? = none ∨
      ∃ s, (a :: rest)[i+1]? = some s ∧ noJunk s = true) →
    ∃ j, (collapseAux a rest)[j]? = some l ∧
      ((collapseAux a rest)[j+1]? = none ∨
        ∃ t, (collapseAux a rest)[j+1]? = some t ∧ qShape t) := by
  intro rest
  induction rest with
  | nil =>
    intro a i l hi hl hsucc
    cases i with
    | zero =>
      rw [List.getElem?_cons_zero] at hi
      injection hi with hi
      subst hi
      exact ⟨0, by simp [collapseAux], Or.inl (by simp [collapseAux])⟩
    | succ i' =>
      rw [List.getElem?_cons_succ] at hi
      simp at hi
  | cons b rest' ih =>
    intro a i l hi hl hsucc
    by_cases hb : junkOnly b = true
    · have hcol : collapseAux a (b :: rest') = collapseAux (a ++ stripWs b) rest' := by
        simp [collapseAux, hb]
      cases i with
      | zero =>
        exfalso
        rcases hsucc with hn | ⟨s, hs, hnj⟩
        · rw [List.getElem?_cons_succ, List.getElem?_cons_zero] at hn
          exact absurd hn (by simp)
        · rw [List.getElem?_cons_succ, List.getElem?_cons_zero] at hs
          injection hs with hs
          subst hs
          exact absurd hb (by simp [junkOnly_eq_false_of_noJunk hnj])
      | succ i' =>
        cases i' with
        | zero =>
          exfalso
          rw [List.getElem?_cons_succ, List.getElem?_cons_zero] at hi
          injection hi with hi
          subst hi
          exact absurd hb (by simp [junkOnly_eq_false_of_noJunk hl])
        | succ i'' =>
          rw [hcol]
          apply ih (a ++ stripWs b) (i'' + 1) l
          · rw [List.getElem?_cons_succ]
            rw [List.getElem?_cons_succ, List.getElem?_cons_succ] at hi
            exact hi
          · exact hl
          · rcases hsucc with hn | ⟨s, hs, hnj⟩
            · left
              rw [List.getElem?_cons_succ]
              rw [List.getElem?_cons_succ, List.getElem?_cons_succ] at hn
              exact hn
            · right
              rw [List.getElem?_cons_succ, List.getElem?_cons_succ] at hs
              exact ⟨s, by rw [List.getElem?_cons_succ]; exact hs, hnj⟩
    · have hcol : collapseAux a (b :: rest') = a :: collapseAux b rest' := by
        simp [collapseAux, hb]
      cases i with
      | zero =>
        rw [List.getElem?_cons_zero] at hi
        injection hi with hi
        subst hi
        obtain ⟨J, tl, hJ, hhead⟩ := collapseAux_head rest' b
        have hnjb : noJunk b = true := by
          rcases hsucc with hn | ⟨s, hs, hnj⟩
          · rw [List.getElem?_cons_succ, List.getElem?_cons_zero] at hn
            exact absurd hn (by simp)
          · rw [List.getElem?_cons_succ, List.getElem?_cons_zero] at hs
            injection hs with hs
            rw [hs]
            exact hnj
        refine ⟨0, ?_, Or.inr ⟨b ++ J, ?_, b, J, rfl, hnjb, hJ⟩⟩
        · rw [hcol, List.getElem?_cons_zero]
        · rw [hcol, List.getElem?_cons_succ, hhead, List.getElem?_cons_zero]
      | succ i' =>
        rw [List.getElem?_cons_succ] at hi
        obtain ⟨j, hj1, hj2⟩ := ih b i' l hi hl (by
          rcases hsucc with hn | ⟨s, hs, hnj⟩
          · left
            rw [List.getElem?_cons_succ] at hn
            exact hn
          · right
            rw [List.getElem?_cons_succ] at hs
            exact ⟨s, hs, hnj⟩)
        refine ⟨j + 1, ?_, ?_⟩
        · rw [hcol, List.getElem?_cons_succ]
          exact hj1
        · rcases hj2 with hn | ⟨t, ht, hq⟩
          · left
            rw [hcol, List.getElem?_cons_succ]
            exact hn
          · right
            exact ⟨t, by rw [hcol, List.getElem?_cons_succ]; exact ht, hq⟩

theorem formatLines_some {jc : Nat} {ls out : List (List Char)}
    (h : formatLines jc ls = some out) :
    out = (pass2 jc (collapse ls)).1 ∧ (pass2 jc (collapse ls)).2 = none ∧
      ls ≠ [] := by
  cases ls with
  | nil => exact absurd h (by simp [formatLines])
  | cons a rest =>
    cases h2 : (pass2 jc (collapse (a :: rest))).2 with
    | some j =>
      exfalso
      simp only [formatLines] at h
      rw [h2] at h
      simp at h
    | none =>
      simp only [formatLines] at h
      rw [h2] at h
      simp at h
      exact ⟨h.symm, rfl, by simp⟩

/-!  Shape of a repositioned line.  -/

theorem processLine_fst_of_endRun_nil (jc : Nat) {l : List Char}
    (h : endRun (afterStart l) = []) : (processLine jc l).1 = afterStart l := by
  rw [processLine_of_endRun_nil jc h]

theorem processLine_fst_early (jc : Nat) {l : List Char}
    (h1 : endRun (afterStart l) ≠ []) (h2 : stripWs (endRun (afterStart l)) = []) :
    (processLine jc l).1 = afterStart l := by
  rw [processLine_early jc h1 h2]

theorem processLine_fst_reposition (jc : Nat) {l : List Char}
    (h : stripWs (endRun (afterStart l)) ≠ []) :
    (processLine jc l).1 =
      endPre (afterStart l) ++
        List.replicate (jc - (endPre (afterStart l)).length) ' ' ++
        stripWs (endRun (afterStart l)) := by
  rw [processLine_reposition jc h]

theorem all_eq_false_of_mem {l : List Char} {p : Char → Bool} {c : Char}
    (hc : c ∈ l) (hp : p c = false) : l.all p = false := by
  cases hall : l.all p
  · rfl
  · rw [List.all_eq_true.mp hall c hc] at hp
    exact absurd hp (by simp)

theorem replicate_space_all_cls (n : Nat) :
    (List.replicate n ' ').all isCls = true := by
  rw [List.all_eq_true]
  intro c hc
  rw [List.eq_of_mem_replicate hc]
  decide

theorem replicate_space_all_not_junk (n : Nat) :
    (List.replicate n ' ').all (fun c => !isJunk c) = true := by
  rw [List.all_eq_true]
  intro c hc
  rw [List.eq_of_mem_replicate hc]
  decide

/-- Decomposition of a line rewritten by the end-of-line repositioning:
its trailing junk-and-whitespace run is exactly the inserted padding
followed by the extracted junk, and the part before the run is exactly
the retained content. -/
theorem reposition_endSplit (jc : Nat) {l : List Char}
    (h : stripWs (endRun (afterStart l)) ≠ []) :
    endRun ((processLine jc l).1) =
        List.replicate (jc - (endPre (afterStart l)).length) ' ' ++
          stripWs (endRun (afterStart l)) ∧
      endPre ((processLine jc l).1) = endPre (afterStart l) := by
  rw [processLine_fst_reposition jc h, List.append_assoc]
  have hj : (stripWs (endRun (afterStart l))).all isJunk = true :=
    stripWs_all_junk_of_cls (endRun_all_cls (afterStart l))
  have hv : (List.replicate (jc - (endPre (afterStart l)).length) ' ' ++
      stripWs (endRun (afterStart l))).all isCls = true := by
    rw [List.all_append, Bool.and_eq_true]
    refine ⟨replicate_space_all_cls _, ?_⟩
    rw [List.all_eq_true]
    intro c hc
    exact cls_of_junk (List.all_eq_true.mp hj c hc)
  have hu : endPre (afterStart l) = [] ∨
      ∃ d t, (endPre (afterStart l)).reverse = d :: t ∧ isCls d = false := by
    rcases endPre_reverse_shape (afterStart l) with hn | ⟨d, t, hrev, hcls, -⟩
    · exact Or.inl hn
    · exact Or.inr ⟨d, t, hrev, hcls⟩
  exact endRun_append hv hu

/-- Per-line column invariant: whenever a processed line has a trailing
junk-and-whitespace run with at least one junk character, the first junk
character of that run stands at offset `max (content length) jc`. -/
theorem processLine_junk_aligned (jc : Nat) (l : List Char)
    (h : stripWs (endRun ((processLine jc l).1)) ≠ []) :
    (endPre ((processLine jc l).1)).length +
        ((endRun ((processLine jc l).1)).takeWhile (fun c => !isJunk c)).length =
      max (endPre ((processLine jc l).1)).length jc := by
  by_cases h2 : stripWs (endRun (afterStart l)) = []
  · by_cases he : endRun (afterStart l) = []
    · exfalso
      rw [processLine_fst_of_endRun_nil jc he, he] at h
      exact h rfl
    · exfalso
      rw [processLine_fst_early jc he h2, h2] at h
      exact h rfl
  · obtain ⟨he1, he2⟩ := reposition_endSplit jc h2
    rw [he1, he2]
    have hjne : stripWs (endRun (afterStart l)) ≠ [] := h2
    have htw : (List.replicate (jc - (endPre (afterStart l)).length) ' ' ++
        stripWs (endRun (afterStart l))).takeWhile (fun c => !isJunk c) =
        List.replicate (jc - (endPre (afterStart l)).length) ' ' := by
      rw [takeWhile_append_all _ (replicate_space_all_not_junk _)]
      cases hs : stripWs (endRun (afterStart l)) with
      | nil => exact absurd hs hjne
      | cons c cs =>
        have hj : (stripWs (endRun (afterStart l))).all isJunk = true :=
          stripWs_all_junk_of_cls (endRun_all_cls (afterStart l))
        rw [hs] at hj
        rw [List.takeWhile_cons_of_neg]
        · simp
        · simp only [List.all_cons, Bool.and_eq_true] at hj
          simp [hj.1]
    rw [htw, List.length_replicate]
    omega

/-- Per-line pure-junk exclusion: with a positive junk column, a
processed line is never non-empty and made of junk characters only. -/
theorem processLine_not_pure_junk (jc : Nat) (l : List Char) (hjc : 1 ≤ jc)
    (hne : (processLine jc l).1 ≠ []) : (processLine jc l).1.all isJunk = false := by
  by_cases h2 : stripWs (endRun (afterStart l)) = []
  · by_cases he : endRun (afterStart l) = []
    · rw [processLine_fst_of_endRun_nil jc he] at hne ⊢
      rcases endRun_eq_nil_shape he with hn | ⟨d, t, hrev, hcls⟩
      · exact absurd hn hne
      · have hd : d ∈ afterStart l := by
          rw [← List.mem_reverse, hrev]
          exact List.mem_cons_self _ _
        exact all_eq_false_of_mem hd (not_junk_of_not_cls hcls)
    · rw [processLine_fst_early jc he h2] at hne ⊢
      cases hr : endRun (afterStart l) with
      | nil => exact absurd hr he
      | cons e es =>
        have hews : e ∈ endRun (afterStart l) := by
          rw [hr]
          exact List.mem_cons_self _ _
        have hws : isWs e = true :=
          List.all_eq_true.mp (all_ws_of_stripWs_eq_nil h2) e hews
        exact all_eq_false_of_mem (mem_of_mem_endRun hews) (ws_not_junk hws)
  · rw [processLine_fst_reposition jc h2]
    by_cases hpad : jc - (endPre (afterStart l)).length = 0
    · have hlen : 1 ≤ (endPre (afterStart l)).length := by omega
      rcases endPre_reverse_shape (afterStart l) with hn | ⟨d, t, hrev, hcls, hdm⟩
      · rw [hn] at hlen
        simp at hlen
      · have hd : d ∈ endPre (afterStart l) ++
            (List.replicate (jc - (endPre (afterStart l)).length) ' ' ++
              stripWs (endRun (afterStart l))) := List.mem_append_left _ hdm
        rw [← List.append_assoc] at hd
        exact all_eq_false_of_mem hd (not_junk_of_not_cls hcls)
    · have hsp : ' ' ∈ List.replicate (jc - (endPre (afterStart l)).length) ' ' :=
        List.mem_replicate.mpr ⟨hpad, rfl⟩
      have hd : ' ' ∈ endPre (afterStart l) ++
          List.replicate (jc - (endPre (afterStart l)).length) ' ' ++
          stripWs (endRun (afterStart l)) :=
        List.mem_append_left _ (List.mem_append_right _ hsp)
      exact all_eq_false_of_mem hd (show isJunk ' ' = false from by decide)

/-!  Splitting and joining.  -/

theorem splitNl_ne_nil (x : List Char) : splitNl x ≠ [] := by
  cases x with
  | nil => simp [splitNl]
  | cons c rest =>
    by_cases hc : c = '\n'
    · simp [splitNl, hc]
    · cases hsp : splitNl rest with
      | nil => simp [splitNl, hc, hsp]
      | cons h t => simp [splitNl, hc, hsp]

theorem splitNl_cons_ne {c : Char} (rest : List Char) (hc : ¬c = '\n')
    {h : List Char} {t : List (List Char)} (hsp : splitNl rest = h :: t) :
    splitNl (c :: rest) = (c :: h) :: t := by
  rw [show splitNl (c :: rest) =
    (if c = '\n' then [] :: splitNl rest
      else
        match splitNl rest with
        | [] => [[c]]
        | h :: t => (c :: h) :: t) from rfl]
  rw [if_neg hc, hsp]

theorem mem_splitNl : ∀ (x s : List Char), s ∈ splitNl x → ∀ c ∈ s, c ∈ x := by
  intro x
  induction x with
  | nil =>
    intro s hs c hc
    simp [splitNl] at hs
    subst hs
    simp at hc
  | cons d rest ih =>
    intro s hs c hc
    by_cases hd : d = '\n'
    · rw [show splitNl (d :: rest) = [] :: splitNl rest from by
        simp [splitNl, hd]] at hs
      rcases List.mem_cons.mp hs with rfl | hs'
      · simp at hc
      · exact List.mem_cons_of_mem _ (ih s hs' c hc)
    · cases hsp : splitNl rest with
      | nil => exact absurd hsp (splitNl_ne_nil rest)
      | cons h t =>
        rw [show splitNl (d :: rest) = (d :: h) :: t from by
          simp [splitNl, hd, hsp]] at hs
        rcases List.mem_cons.mp hs with rfl | hs'
        · rcases List.mem_cons.mp hc with rfl | hc'
          · exact List.mem_cons_self _ _
          · have hh : h ∈ splitNl rest := by
              rw [hsp]
              exact List.mem_cons_self _ _
            exact List.mem_cons_of_mem _ (ih h hh c hc')
        · have hs2 : s ∈ splitNl rest := by
            rw [hsp]
            exact List.mem_cons_of_mem _ hs'
          exact List.mem_cons_of_mem _ (ih s hs2 c hc)

theorem mem_of_mem_stripCr {l : List Char} {c : Char} (h : c ∈ stripCr l) :
    c ∈ l := by
  cases hrev : l.reverse with
  | nil =>
    simp only [stripCr, hrev] at h
    simp at h
  | cons d t =>
    simp only [stripCr, hrev] at h
    by_cases hd : d = '\r'
    · rw [if_pos hd] at h
      have h1 : c ∈ t := List.mem_reverse.mp h
      have h2 : c ∈ l.reverse := by
        rw [hrev]
        exact List.mem_cons_of_mem _ h1
      exact List.mem_reverse.mp h2
    · rw [if_neg hd] at h
      exact h

theorem mem_linesOfAux : ∀ (S : List (List Char)) (s' : List Char),
    s' ∈ linesOfAux S → ∃ s ∈ S, ∀ c ∈ s', c ∈ s := by
  intro S
  induction S with
  | nil =>
    intro s' hs'
    simp [linesOfAux] at hs'
  | cons s rest ih =>
    intro s' hs'
    cases rest with
    | nil =>
      by_cases hse : s.isEmpty = true
      · rw [show linesOfAux [s] = [] from by simp [linesOfAux, hse]] at hs'
        simp at hs'
      · rw [show linesOfAux [s] = [s] from by simp [linesOfAux, hse]] at hs'
        rcases List.mem_cons.mp hs' with rfl | h'
        · exact ⟨s', List.mem_cons_self _ _, fun c hc => hc⟩
        · simp at h'
    | cons b t =>
      rw [show linesOfAux (s :: b :: t) = stripCr s :: linesOfAux (b :: t)
        from rfl] at hs'
      rcases List.mem_cons.mp hs' with rfl | h'
      · exact ⟨s, List.mem_cons_self _ _, fun c hc => mem_of_mem_stripCr hc⟩
      · obtain ⟨u, hu, hsub⟩ := ih s' h'
        exact ⟨u, List.mem_cons_of_mem _ hu, hsub⟩

theorem linesOf_all_noJunk {x : List Char} (hx : ∀ c ∈ x, isJunk c = false) :
    ∀ l ∈ linesOf x, noJunk l = true := by
  intro l hl
  unfold linesOf at hl
  by_cases hxe : x.isEmpty = true
  · rw [if_pos hxe] at hl
    simp at hl
  · rw [if_neg hxe] at hl
    obtain ⟨s, hs, hsub⟩ := mem_linesOfAux _ l hl
    unfold noJunk
    rw [List.all_eq_true]
    intro c hc
    have := hx c (mem_splitNl x s hs c (hsub c hc))
    simp [this]

theorem collapseAux_eq_self : ∀ (rest : List (List Char)) (a : List Char),
    (∀ b ∈ rest, noJunk b = true) → collapseAux a rest = a :: rest := by
  intro rest
  induction rest with
  | nil =>
    intro a h
    rfl
  | cons b t ih =>
    intro a h
    have hb : noJunk b = true := h b (List.mem_cons_self _ _)
    rw [show collapseAux a (b :: t) = a :: collapseAux b t from by
      simp [collapseAux, junkOnly_eq_false_of_noJunk hb]]
    rw [ih b (fun s hs => h s (List.mem_cons_of_mem _ hs))]

theorem pass2_eq_self (jc : Nat) : ∀ ls : List (List Char),
    (∀ l ∈ ls, noJunk l = true) → pass2 jc ls = (ls, none) := by
  intro ls
  induction ls with
  | nil =>
    intro h
    rfl
  | cons a rest ih =>
    intro h
    rw [pass2_cons, ih (fun l hl => h l (List.mem_cons_of_mem _ hl))]
    rw [show appendOpt a ((rest, (none : Option (List Char)))).2 = a from rfl,
      processLine_noJunk jc (h a (List.mem_cons_self _ _))]

theorem splitNl_eq_nil_nil {x : List Char} (h : splitNl x = [[]]) : x = [] := by
  cases x with
  | nil => rfl
  | cons c rest =>
    exfalso
    by_cases hc : c = '\n'
    · rw [show splitNl (c :: rest) = [] :: splitNl rest from by
        simp [splitNl, hc]] at h
      injection h with h1 h2
      exact splitNl_ne_nil rest h2
    · cases hsp : splitNl rest with
      | nil => exact splitNl_ne_nil rest hsp
      | cons hh tt =>
        rw [show splitNl (c :: rest) = (c :: hh) :: tt from by
          simp [splitNl, hc, hsp]] at h
        injection h with h1 h2
        exact absurd h1 (by simp)

theorem linesOf_ne_nil {x : List Char} (hne : x ≠ []) : linesOf x ≠ [] := by
  unfold linesOf
  have hxe : x.isEmpty = false := by
    cases hxe : x.isEmpty
    · rfl
    · exact absurd (List.isEmpty_iff.mp hxe) hne
  rw [if_neg (by simp [hxe])]
  cases hsp : splitNl x with
  | nil => exact absurd hsp (splitNl_ne_nil x)
  | cons s rest =>
    cases rest with
    | nil =>
      have hs : s ≠ [] := by
        intro h0
        exact hne (splitNl_eq_nil_nil (by rw [hsp, h0]))
      have hse : s.isEmpty = false := by
        cases hse : s.isEmpty
        · rfl
        · exact absurd (List.isEmpty_iff.mp hse) hs
      simp [linesOfAux, hse]
    | cons b t => simp [linesOfAux]

/-- Identity of the two passes on junk-free input: without junk
characters the collapsing pass removes nothing and the repositioning
pass rewrites nothing, so `format` reduces to splitting into lines and
rejoining with a single newline. -/
theorem format_noJunk (jc : Nat) (x : List Char) (hne : x ≠ [])
    (hx : ∀ c ∈ x, isJunk c = false) :
    format jc x = some (joinLines (linesOf x)) := by
  have hlsnj : ∀ l ∈ linesOf x, noJunk l = true := linesOf_all_noJunk hx
  have hlne : linesOf x ≠ [] := linesOf_ne_nil hne
  cases hls : linesOf x with
  | nil => exact absurd hls hlne
  | cons a rest =>
    have hnj' : ∀ l ∈ a :: rest, noJunk l = true := by
      rw [← hls]
      exact hlsnj
    unfold format
    rw [hls]
    simp only [formatLines]
    rw [show collapse (a :: rest) = collapseAux a rest from rfl,
      collapseAux_eq_self rest a (fun b hb => hnj' b (List.mem_cons_of_mem _ hb)),
      pass2_eq_self jc _ hnj']
    rfl

theorem joinLines_splitNl : ∀ x : List Char, joinLines (splitNl x) = x := by
  intro x
  induction x with
  | nil => rfl
  | cons c rest ih =>
    by_cases hc : c = '\n'
    · rw [show splitNl (c :: rest) = [] :: splitNl rest from by simp [splitNl, hc]]
      cases hsp : splitNl rest with
      | nil => exact absurd hsp (splitNl_ne_nil rest)
      | cons h t =>
        rw [show joinLines ([] :: h :: t) = [] ++ '\n' :: joinLines (h :: t)
          from rfl]
        rw [← hsp, ih, hc]
        rfl
    · cases hsp : splitNl rest with
      | nil => exact absurd hsp (splitNl_ne_nil rest)
      | cons h t =>
        rw [show splitNl (c :: rest) = (c :: h) :: t from by
          simp [splitNl, hc, hsp]]
        have hjoin : joinLines ((c :: h) :: t) = c :: joinLines (h :: t) := by
          cases t with
          | nil => rfl
          | cons u v => rfl
        rw [hjoin, ← hsp, ih]

theorem stripCr_eq_self {l : List Char} (h : ∀ c ∈ l, c ≠ '\r') :
    stripCr l = l := by
  cases hrev : l.reverse with
  | nil =>
    have h0 : l = [] := by simpa using congrArg List.reverse hrev
    rw [h0]
    rfl
  | cons d t =>
    have hd : d ∈ l := by
      rw [← List.mem_reverse, hrev]
      exact List.mem_cons_self _ _
    simp only [stripCr, hrev]
    rw [if_neg (h d hd)]

theorem splitNl_getLast : ∀ x : List Char, x ≠ [] → x.getLast? ≠ some '\n' →
    (splitNl x).getLast? ≠ some [] := by
  intro x
  induction x with
  | nil =>
    intro h
    exact absurd rfl h
  | cons c rest ih =>
    intro hne hl
    cases rest with
    | nil =>
      have hc : c ≠ '\n' := by
        intro hc
        exact hl (by rw [hc]; rfl)
      rw [show splitNl [c] = [[c]] from by simp [splitNl, hc]]
      simp
    | cons d t =>
      have hl' : (d :: t).getLast? ≠ some '\n' := by
        rw [← List.getLast?_cons_cons]
        exact hl
      have hrec := ih (by simp) hl'
      by_cases hc : c = '\n'
      · rw [show splitNl (c :: d :: t) = [] :: splitNl (d :: t) from by
          simp [splitNl, hc]]
        cases hsp : splitNl (d :: t) with
        | nil => exact absurd hsp (splitNl_ne_nil _)
        | cons h u =>
          rw [List.getLast?_cons_cons]
          rw [hsp] at hrec
          exact hrec
      · cases hsp : splitNl (d :: t) with
        | nil => exact absurd hsp (splitNl_ne_nil _)
        | cons h u =>
          rw [splitNl_cons_ne (d :: t) hc hsp]
          cases u with
          | nil => simp
          | cons u0 u1 =>
            rw [List.getLast?_cons_cons]
            rw [hsp, List.getLast?_cons_cons] at hrec
            exact hrec

theorem linesOfAux_eq_self : ∀ S : List (List Char),
    (∀ s ∈ S, stripCr s = s) → S.getLast? ≠ some [] → linesOfAux S = S := by
  intro S
  induction S with
  | nil =>
    intro h hl
    rfl
  | cons s rest ih =>
    intro h hl
    cases rest with
    | nil =>
      have hs : s ≠ [] := by
        intro h0
        exact hl (by rw [h0]; rfl)
      have hse : s.isEmpty = false := by
        cases hse : s.isEmpty
        · rfl
        · exact absurd (List.isEmpty_iff.mp hse) hs
      simp [linesOfAux, hse]
    | cons b t =>
      rw [show linesOfAux (s :: b :: t) = stripCr s :: linesOfAux (b :: t)
        from rfl]
      rw [h s (List.mem_cons_self _ _)]
      rw [ih (fun u hu => h u (List.mem_cons_of_mem _ hu)) (by
        rw [← List.getLast?_cons_cons]
        exact hl)]

theorem linesOf_eq_splitNl {x : List Char} (hne : x ≠ [])
    (hr : ∀ c ∈ x, c ≠ '\r') (hl : x.getLast? ≠ some '\n') :
    linesOf x = splitNl x := by
  unfold linesOf
  have hxe : x.isEmpty = false := by
    cases hxe : x.isEmpty
    · rfl
    · exact absurd (List.isEmpty_iff.mp hxe) hne
  rw [if_neg (by simp [hxe])]
  apply linesOfAux_eq_self
  · intro s hs
    exact stripCr_eq_self (fun c hc => hr c (mem_splitNl x s hs c hc))
  · exact splitNl_getLast x hne hl

/-!  Character counting across the pipeline.  -/

theorem sumCount_cons (c : Char) (l : List Char) (L : List (List Char)) :
    sumCount c (l :: L) = l.count c + sumCount c L := by
  simp [sumCount]

theorem count_stripWs {c : Char} (hc : isWs c = false) (l : List Char) :
    (stripWs l).count c = l.count c := by
  unfold stripWs
  exact List.count_filter (by simp [hc])

theorem count_eq_zero_of_all_cls {c : Char} (hw : isWs c = false)
    (hj : isJunk c = false) {l : List Char} (hl : l.all isCls = true) :
    l.count c = 0 := by
  rw [List.count_eq_zero]
  intro hc
  have := junk_of_cls_not_ws (List.all_eq_true.mp hl c hc) hw
  rw [this] at hj
  exact absurd hj (by simp)

theorem count_eq_zero_of_all_junk {c : Char} (hj : isJunk c = false)
    {l : List Char} (hl : l.all isJunk = true) : l.count c = 0 := by
  rw [List.count_eq_zero]
  intro hc
  have := List.all_eq_true.mp hl c hc
  rw [this] at hj
  exact absurd hj (by simp)

theorem sumCount_splitNl {c : Char} (hc : ¬c = '\n') : ∀ x : List Char,
    sumCount c (splitNl x) = x.count c := by
  intro x
  induction x with
  | nil => simp [splitNl, sumCount]
  | cons d rest ih =>
    by_cases hd : d = '\n'
    · rw [show splitNl (d :: rest) = [] :: splitNl rest from by
        simp [splitNl, hd]]
      rw [sumCount_cons, ih, List.count_cons]
      have hcd : (d == c) = false := by
        cases hcd : d == c
        · rfl
        · exact absurd (by rw [← eq_of_beq hcd]; exact hd) hc
      rw [hcd]
      simp
    · cases hsp : splitNl rest with
      | nil => exact absurd hsp (splitNl_ne_nil rest)
      | cons h t =>
        rw [splitNl_cons_ne rest hd hsp]
        rw [sumCount_cons, List.count_cons, List.count_cons]
        have hsum : sumCount c (h :: t) = rest.count c := by
          rw [← hsp]
          exact ih
        rw [sumCount_cons] at hsum
        omega

theorem count_stripCr {c : Char} (hc : ¬c = '\r') (l : List Char) :
    (stripCr l).count c = l.count c := by
  cases hrev : l.reverse with
  | nil =>
    have h0 : l = [] := by simpa using congrArg List.reverse hrev
    rw [h0]
    rfl
  | cons d t =>
    simp only [stripCr, hrev]
    by_cases hd : d = '\r'
    · rw [if_pos hd]
      have h1 : l.count c = (d :: t).count c := by
        rw [← List.count_reverse, hrev]
      rw [h1, List.count_reverse, List.count_cons]
      have hcd : (d == c) = false := by
        cases hcd : d == c
        · rfl
        · exact absurd (by rw [← eq_of_beq hcd]; exact hd) hc
      rw [hcd]
      simp
    · rw [if_neg hd]

theorem sumCount_linesOfAux {c : Char} (hc : ¬c = '\r') :
    ∀ S : List (List Char), sumCount c (linesOfAux S) = sumCount c S := by
  intro S
  induction S with
  | nil => rfl
  | cons s rest ih =>
    cases rest with
    | nil =>
      by_cases hse : s.isEmpty = true
      · rw [show linesOfAux [s] = [] from by simp [linesOfAux, hse]]
        rw [List.isEmpty_iff.mp hse]
        rfl
      · rw [show linesOfAux [s] = [s] from by simp [linesOfAux, hse]]
    | cons b t =>
      rw [show linesOfAux (s :: b :: t) = stripCr s :: linesOfAux (b :: t)
        from rfl]
      simp only [sumCount_cons, count_stripCr hc, ih]

theorem sumCount_collapseAux {c : Char} (hw : isWs c = false) :
    ∀ (rest : List (List Char)) (a : List Char),
    sumCount c (collapseAux a rest) = a.count c + sumCount c rest := by
  intro rest
  induction rest with
  | nil =>
    intro a
    simp [collapseAux, sumCount]
  | cons b t ih =>
    intro a
    by_cases hb : junkOnly b = true
    · rw [show collapseAux a (b :: t) = collapseAux (a ++ stripWs b) t from by
        simp [collapseAux, hb]]
      rw [ih, List.count_append, count_stripWs hw, sumCount_cons]
      omega
    · rw [show collapseAux a (b :: t) = a :: collapseAux b t from by
        simp [collapseAux, hb]]
      rw [sumCount_cons, ih, sumCount_cons]

theorem count_afterStart {c : Char} (hw : isWs c = false)
    (hj : isJunk c = false) (l : List Char) :
    (afterStart l).count c = l.count c := by
  cases hss : startSplit l with
  | none => rw [afterStart_of_none hss]
  | some val =>
    obtain ⟨p, cap, rest⟩ := val
    obtain ⟨hp, -, hcap, hrest, -⟩ := startSplit_some hss
    have hl : l = p ++ (cap ++ rest) := by
      rw [hp, hcap, hrest, List.takeWhile_append_dropWhile,
        List.takeWhile_append_dropWhile]
    have hcapz : cap.count c = 0 := by
      apply count_eq_zero_of_all_cls hw hj
      rw [hcap]
      exact takeWhile_all _ _
    rw [afterStart_of_some hss]
    conv_rhs => rw [hl]
    rw [List.count_append, List.count_append, List.count_append, hcapz]
    omega

theorem count_processLine_fst {c : Char} (hw : isWs c = false)
    (hj : isJunk c = false) (jc : Nat) (l : List Char) :
    ((processLine jc l).1).count c = l.count c := by
  have hrunz : (endRun (afterStart l)).count c = 0 :=
    count_eq_zero_of_all_cls hw hj (endRun_all_cls _)
  have hsplit : (afterStart l).count c =
      (endPre (afterStart l)).count c := by
    conv_lhs => rw [← endPre_append_endRun (afterStart l)]
    rw [List.count_append, hrunz]
    omega
  by_cases h2 : stripWs (endRun (afterStart l)) = []
  · by_cases he : endRun (afterStart l) = []
    · rw [processLine_fst_of_endRun_nil jc he, count_afterStart hw hj]
    · rw [processLine_fst_early jc he h2, count_afterStart hw hj]
  · rw [processLine_fst_reposition jc h2]
    have hrep : (List.replicate (jc - (endPre (afterStart l)).length) ' ').count c
        = 0 := by
      rw [List.count_eq_zero]
      intro hcm
      rw [List.eq_of_mem_replicate hcm] at hw
      exact absurd hw (by decide)
    have hjz : (stripWs (endRun (afterStart l))).count c = 0 :=
      count_eq_zero_of_all_junk hj
        (stripWs_all_junk_of_cls (endRun_all_cls _))
    rw [List.count_append, List.count_append, hrep, hjz,
      ← count_afterStart hw hj l, hsplit]
    omega

theorem optCount_processLine_snd {c : Char} (hj : isJunk c = false)
    (jc : Nat) (l : List Char) : optCount c ((processLine jc l).2) = 0 := by
  cases hpr : (processLine jc l).2 with
  | none => rfl
  | some j =>
    unfold optCount
    exact count_eq_zero_of_all_junk hj (processLine_snd_all_junk hpr)

theorem sumCount_pass2 {c : Char} (hw : isWs c = false)
    (hj : isJunk c = false) (jc : Nat) :
    ∀ cs : List (List Char),
    sumCount c (pass2 jc cs).1 + optCount c (pass2 jc cs).2 = sumCount c cs := by
  intro cs
  induction cs with
  | nil => rfl
  | cons a rest ih =>
    rw [pass2_cons]
    have happ : (appendOpt a (pass2 jc rest).2).count c =
        a.count c + optCount c (pass2 jc rest).2 := by
      cases hres : (pass2 jc rest).2 with
      | none => simp [appendOpt, optCount]
      | some j => simp [appendOpt, optCount, List.count_append]
    rw [show ((processLine jc (appendOpt a (pass2 jc rest).2)).1 ::
        (pass2 jc rest).1,
        (processLine jc (appendOpt a (pass2 jc rest).2)).2).1 =
      (processLine jc (appendOpt a (pass2 jc rest).2)).1 ::
        (pass2 jc rest).1 from rfl]
    rw [show ((processLine jc (appendOpt a (pass2 jc rest).2)).1 ::
        (pass2 jc rest).1,
        (processLine jc (appendOpt a (pass2 jc rest).2)).2).2 =
      (processLine jc (appendOpt a (pass2 jc rest).2)).2 from rfl]
    rw [sumCount_cons, count_processLine_fst hw hj, happ,
      optCount_processLine_snd hj, sumCount_cons]
    omega

theorem count_joinLines {c : Char} (hc : ¬c = '\n') :
    ∀ L : List (List Char), (joinLines L).count c = sumCount c L := by
  intro L
  induction L with
  | nil => rfl
  | cons a rest ih =>
    cases rest with
    | nil => simp [joinLines, sumCount]
    | cons b t =>
      rw [show joinLines (a :: b :: t) = a ++ '\n' :: joinLines (b :: t)
        from rfl]
      have hcd : ('\n' == c) = false := by
        cases hcd : '\n' == c
        · rfl
        · exact absurd (eq_of_beq hcd).symm hc
      rw [List.count_append, List.count_cons, ih, hcd]
      simp only [sumCount_cons]
      simp

/-!  Concrete evaluations: code-bug witnesses and counterexamples.  -/

/-- C9: no content loss — whenever `format` completes, every character
that is neither whitespace nor junk occurs in the output exactly as often
as in the input (so the multiset of non-whitespace non-junk characters is
preserved; only junk and whitespace are relocated, inserted or dropped). -/
theorem c9_content_preserved (jc : Nat) (x y : List Char)
    (h : format jc x = some y) (c : Char) (hw : isWs c = false)
    (hj : isJunk c = false) : y.count c = x.count c := by
  have hnl : ¬c = '\n' := by
    intro hc
    subst hc
    exact absurd hw (by decide)
  have hcr : ¬c = '\r' := by
    intro hc
    subst hc
    exact absurd hw (by decide)
  unfold format at h
  cases hfl : formatLines jc (linesOf x) with
  | none =>
    rw [hfl] at h
    exact absurd h (by simp)
  | some out =>
    rw [hfl] at h
    simp at h
    obtain ⟨hfst, hsnd, -⟩ := formatLines_some hfl
    have hp2 := sumCount_pass2 hw hj jc (collapse (linesOf x))
    rw [hsnd] at hp2
    rw [show optCount c (none : Option (List Char)) = 0 from rfl] at hp2
    have hcol : sumCount c (collapse (linesOf x)) = sumCount c (linesOf x) := by
      cases hls : linesOf x with
      | nil => rfl
      | cons a rest =>
        rw [show collapse (a :: rest) = collapseAux a rest from rfl,
          sumCount_collapseAux hw rest a, sumCount_cons]
    have hlin : sumCount c (linesOf x) = x.count c := by
      unfold linesOf
      by_cases hxe : x.isEmpty = true
      · rw [if_pos hxe, List.isEmpty_iff.mp hxe]
        rfl
      · rw [if_neg hxe, sumCount_linesOfAux hcr, sumCount_splitNl hnl]
    rw [← hfst] at hp2
    rw [← h, count_joinLines hnl]
    omega

/-- C9 witness: on input `"ab;\n"` with the default configuration the
output is `"ab" ++ 118 spaces ++ ";"`, and the count of `'a'` (one) is
preserved. -/
theorem c9_content_preserved_witness :
    (format 120 "ab;\n".data =
        some ("ab".data ++ List.replicate 118 ' ' ++ ";".data) ∧
      isWs 'a' = false ∧ isJunk 'a' = false) ∧
      ("ab".data ++ List.replicate 118 ' ' ++ ";".data).count 'a' =
        "ab;\n".data.count 'a' :=
  ⟨⟨by decide, by decide, by decide⟩,
    c9_content_preserved 120 "ab;\n".data
      ("ab".data ++ List.replicate 118 ' ' ++ ";".data) (by decide) 'a'
      (by decide) (by decide)⟩

/-- C1: the claim says `format` returns normally on every input, including
the empty buffer and buffers whose first line begins with whitespace
followed by a junk character.  The code panics on both: on the empty
buffer `lines.len() - 1` underflows, and on `" {a"` the staged junk is
applied through `lines[idx - 1]` with `idx = 0`.  Both panics are modelled
as `none`. -/
theorem c1_format_panics :
    formatD "".data = none ∧ formatD " \x7ba".data = none := by
  constructor <;> decide

/-- C2: the claim says the empty input yields the empty output; instead
the code panics on the empty input (`lines.len() - 1` underflows on the
empty line sequence), modelled as `none`. -/
theorem c2_empty_input_panics : formatD "".data = none := by decide

/-- C3 counterexample: `format` is not idempotent.  On `"a\n\n"` the
first application yields `"a\n"` (the final empty line re-joins into a
trailing newline) and the second application strips that newline,
yielding `"a"`. -/
theorem c3_not_idempotent :
    formatD "a\n\n".data = some "a\n".data ∧
      (formatD "a\n\n".data).bind formatD = some "a".data ∧
      (formatD "a\n\n".data).bind formatD ≠ formatD "a\n\n".data := by
  refine ⟨by decide, by decide, by decide⟩

/-- C3 amended: idempotence holds for every fixed configuration on every
non-empty input containing no junk characters and no carriage returns and
not ending in a newline — on such inputs `format` is the identity, so
`format (format x) = format x`.  (On general inputs idempotence fails,
see the counterexample `format "a\n\n" = "a\n"` but
`format "a\n" = "a"`.) -/
theorem c3_idempotent_amended (jc : Nat) (x : List Char) (hne : x ≠ [])
    (hj : ∀ c ∈ x, isJunk c = false) (hr : ∀ c ∈ x, c ≠ '\r')
    (hl : x.getLast? ≠ some '\n') :
    format jc x = some x ∧ (format jc x).bind (format jc) = format jc x := by
  have h1 : format jc x = some x := by
    rw [format_noJunk jc x hne hj, linesOf_eq_splitNl hne hr hl, joinLines_splitNl]
  refine ⟨h1, ?_⟩
  rw [h1]
  exact h1

/-- C3 amended, witness: `"ab"` is junk-free, carriage-return-free and
does not end in a newline; formatting it once or twice yields `"ab"`. -/
theorem c3_idempotent_amended_witness :
    ("ab".data ≠ [] ∧ (∀ c ∈ "ab".data, isJunk c = false) ∧
      (∀ c ∈ "ab".data, c ≠ '\r') ∧ "ab".data.getLast? ≠ some '\n') ∧
      format 120 "ab".data = some "ab".data ∧
      (format 120 "ab".data).bind (format 120) = format 120 "ab".data :=
  ⟨⟨by decide, by decide, by decide, by decide⟩,
    c3_idempotent_amended 120 "ab".data (by decide) (by decide) (by decide)
      (by decide)⟩

/-- C10: line terminators are normalized and trimmed even on junk-free
input — on any non-empty junk-free buffer `format` is exactly "split into
lines, rejoin with a single newline", so `"\r\n"` terminators become
`"\n"` and a final terminator is dropped; concretely
`format "a\r\nb\n" = "a\nb"`, and `format "a\n" = "a" ≠ "a\n"`, so
`format` is not the identity on otherwise-unchanged text ending in a
newline. -/
theorem c10_terminator_normalization :
    (∀ (jc : Nat) (x : List Char), x ≠ [] → (∀ c ∈ x, isJunk c = false) →
        format jc x = some (joinLines (linesOf x))) ∧
      formatD "a\r\nb\n".data = some "a\nb".data ∧
      formatD "a\n".data = some "a".data ∧ "a".data ≠ "a\n".data :=
  ⟨fun jc x hne hj => format_noJunk jc x hne hj, by decide, by decide, by decide⟩

/-- C10 witness: the junk-free buffer `"q\r\n"` is normalized to the
join of its line list. -/
theorem c10_terminator_normalization_witness :
    ("q\r\n".data ≠ [] ∧ (∀ c ∈ "q\r\n".data, isJunk c = false)) ∧
      format 7 "q\r\n".data = some (joinLines (linesOf "q\r\n".data)) :=
  ⟨⟨by decide, by decide⟩,
    c10_terminator_normalization.1 7 "q\r\n".data (by decide) (by decide)⟩

/-- C4 counterexample: with `junk_column = 1` the line `"ab;"` keeps its
junk glued directly after the content (`"ab;"`), although the pre-junk
content `"ab"` extends past the junk column; the claimed single
separating space (which would give `"ab ;"`) is never inserted: the run
of non-junk characters before the junk in the trailing run is empty. -/
theorem c4_one_space_refuted :
    format 1 "ab;".data = some "ab;".data ∧
      stripWs (endRun "ab;".data) = ";".data ∧
      1 ≤ (endPre "ab;".data).length ∧
      (endRun "ab;".data).takeWhile (fun c => !isJunk c) = [] ∧
      "ab;".data ≠ "ab ;".data := by
  refine ⟨by decide, by decide, by decide, by decide, by decide⟩

/-- C4 amended: after formatting, every output line whose trailing
junk-and-whitespace run still contains a junk character has its first
junk character at offset `max (pre-junk content length) junk_column`:
the junk starts at or after `junk_column`, and when the pre-junk content
already extends at or past `junk_column` the junk is attached directly
after the content with NO separating space (and the content itself is
never truncated). -/
theorem c4_column_invariant_amended (jc : Nat) (ls out : List (List Char))
    (hout : formatLines jc ls = some out) (t : List Char) (ht : t ∈ out)
    (hne : stripWs (endRun t) ≠ []) :
    jc ≤ (endPre t).length +
        ((endRun t).takeWhile (fun c => !isJunk c)).length ∧
      (endPre t).length + ((endRun t).takeWhile (fun c => !isJunk c)).length =
        max (endPre t).length jc := by
  obtain ⟨hfst, -, -⟩ := formatLines_some hout
  subst hfst
  obtain ⟨s, rfl⟩ := pass2_fst_mem ht
  have heq := processLine_junk_aligned jc s hne
  exact ⟨by rw [heq]; exact Nat.le_max_right _ _, heq⟩

/-- C4 amended, witness: formatting the single line `"ab{"` with
`junk_column = 5` yields `"ab   {"`, whose junk starts at offset
`5 = max 2 5`. -/
theorem c4_column_invariant_amended_witness :
    (formatLines 5 ["ab\x7b".data] = some ["ab   \x7b".data] ∧
      "ab   \x7b".data ∈ [("ab   \x7b".data : List Char)] ∧
      stripWs (endRun "ab   \x7b".data) ≠ []) ∧
      5 ≤ (endPre "ab   \x7b".data).length +
          ((endRun "ab   \x7b".data).takeWhile (fun c => !isJunk c)).length ∧
      (endPre "ab   \x7b".data).length +
          ((endRun "ab   \x7b".data).takeWhile (fun c => !isJunk c)).length =
        max (endPre "ab   \x7b".data).length 5 :=
  ⟨⟨by decide, by decide, by decide⟩,
    c4_column_invariant_amended 5 ["ab\x7b".data] ["ab   \x7b".data] (by decide)
      "ab   \x7b".data (by decide) (by decide)⟩

/-- C6 amended: with a positive junk column, no line of the final output
(first line included) consists solely of junk characters.  The original
claim — no non-first output line made of junk and whitespace together —
is false, see the counterexample. -/
theorem c6_no_pure_junk_line_amended (jc : Nat) (hjc : 1 ≤ jc)
    (ls out : List (List Char)) (hout : formatLines jc ls = some out)
    (t : List Char) (ht : t ∈ out) (hne : t ≠ []) : t.all isJunk = false := by
  obtain ⟨hfst, -, -⟩ := formatLines_some hout
  subst hfst
  obtain ⟨s, rfl⟩ := pass2_fst_mem ht
  exact processLine_not_pure_junk jc s hjc hne

/-- C6 amended, witness: formatting `"a{"` with `junk_column = 2` yields
the line `"a {"`, which is not made of junk characters only. -/
theorem c6_no_pure_junk_line_amended_witness :
    (1 ≤ 2 ∧ formatLines 2 ["a\x7b".data] = some ["a \x7b".data] ∧
      "a \x7b".data ∈ [("a \x7b".data : List Char)] ∧ "a \x7b".data ≠ []) ∧
      ("a \x7b".data).all isJunk = false :=
  ⟨⟨by decide, by decide, by decide, by decide⟩,
    c6_no_pure_junk_line_amended 2 (by decide) ["a\x7b".data] ["a \x7b".data]
      (by decide) "a \x7b".data (by decide) (by decide)⟩

/-- C5 amended: when step 1 stages a junk string, the staged junk is
appended to the previous line only if the trailing step does not take the
pure-whitespace early return; when the line's trailing run after
extraction exists but contains only whitespace, the staged junk is
silently discarded and the previous line receives nothing. -/
theorem c5_staged_append_amended (jc : Nat) (l p cap rest : List Char)
    (h : startSplit l = some (p, cap, rest)) :
    (processLine jc l).2 =
      if endRun (p ++ rest) ≠ [] ∧ stripWs (endRun (p ++ rest)) = [] then none
      else some (stripWs cap) := by
  have has : afterStart l = p ++ rest := afterStart_of_some h
  have hst : stagedOf l = some (stripWs cap) := stagedOf_of_some h
  by_cases h2 : stripWs (endRun (p ++ rest)) = []
  · by_cases he : endRun (p ++ rest) = []
    · rw [processLine_of_endRun_nil jc (by rw [has]; exact he), hst,
        if_neg (by simp [he])]
    · rw [processLine_early jc (by rw [has]; exact he) (by rw [has]; exact h2),
        if_pos ⟨he, h2⟩]
  · rw [processLine_reposition jc (by rw [has]; exact h2), hst,
      if_neg (by simp [h2])]

/-- C5 amended, witness: the line `" { b "` stages `"{"`, its trailing
run after extraction is the pure-whitespace `" "`, and the staged junk is
discarded. -/
theorem c5_staged_append_amended_witness :
    startSplit " \x7b b ".data = some (" ".data, "\x7b ".data, "b ".data) ∧
      (processLine 120 " \x7b b ".data).2 = none :=
  ⟨by decide,
    (c5_staged_append_amended 120 " \x7b b ".data " ".data "\x7b ".data "b ".data
      (by decide)).trans (by decide)⟩

/-- C5 counterexample: on input `"a\n { b \n"` the second line stages the
junk `"{"` in step 1 (`startSplit` fires), its trailing run after
extraction is pure whitespace, and the early return discards the staged
junk instead of appending it to the previous line: the output is
`"a\n b "` and contains no `'{'` at all. -/
theorem c5_staged_append_refuted :
    stagedOf " \x7b b ".data = some "\x7b".data ∧
      formatD "a\n \x7b b \n".data = some "a\n b ".data ∧
      ("a\n b ".data).count '{' = 0 := by
  refine ⟨by decide, by decide, by decide⟩

/-- C6 counterexample: on input `"a\n\n  {b"` the output's second line
(index 1, not the first line) consists of 120 spaces followed by `"{"`:
a line made solely of junk and whitespace with a junk character present.
The leading-junk extraction of line 3 propagated `"{"` backward into the
empty line 2, which was then repositioned. -/
theorem c6_junk_only_line_appears :
    formatD "a\n\n  \x7bb".data =
        some ("a\n".data ++ List.replicate 120 ' ' ++ "\x7b\n  b".data) ∧
      (linesOf ("a\n".data ++ List.replicate 120 ' ' ++ "\x7b\n  b".data))[1]? =
        some (List.replicate 120 ' ' ++ "\x7b".data) ∧
      (List.replicate 120 ' ' ++ "\x7b".data).all isCls = true ∧
      (List.replicate 120 ' ' ++ "\x7b".data).any isJunk = true := by
  refine ⟨by decide, by decide, by decide, by decide⟩

/-- C7 counterexample: on `"foo\n{\n"` with default configuration the
code produces `"foo"` followed by 117 spaces and `"{"` (the junk starts
at offset 120 = `junk_column`), not the claimed 116 spaces. -/
theorem c7_scenario1_refuted :
    formatD "foo\n\x7b\n".data =
        some ("foo".data ++ List.replicate 117 ' ' ++ "\x7b".data) ∧
      formatD "foo\n\x7b\n".data ≠
        some ("foo".data ++ List.replicate 116 ' ' ++ "\x7b".data) := by
  refine ⟨by decide, by decide⟩

/-- C7 amended: scenario 1 with the padding corrected — input
`"foo\n{\n"` with default configuration collapses to `"foo{"` and then
repositions the `"{"` to start at column 120, i.e. `"foo"` followed by
117 spaces followed by `"{"`. -/
theorem c7_scenario1_amended :
    formatD "foo\n\x7b\n".data =
      some ("foo".data ++ List.replicate 117 ' ' ++ "\x7b".data) := by
  decide

/-- C8 amended: a line containing no junk characters, whose immediately
following input line (when present) also contains no junk characters, is
never merged away by collapsing and is never modified by repositioning:
it appears verbatim among the output lines.  (Without the condition on
the following line the claim is false: a junk-free line is modified when
its successor propagates leading junk into it, see the counterexample.) -/
theorem c8_no_junk_line_preserved (jc : Nat) (x : List Char) (i : Nat)
    (l : List Char) (out : List (List Char))
    (hi : (linesOf x)[i]? = some l) (hl : noJunk l = true)
    (hsucc : (linesOf x)[i+1]? = none ∨
      ∃ s, (linesOf x)[i+1]? = some s ∧ noJunk s = true)
    (hout : formatLines jc (linesOf x) = some out) :
    ∃ j : Nat, out[j]? = some l := by
  obtain ⟨hfst, hsnd, hne⟩ := formatLines_some hout
  cases hls : linesOf x with
  | nil =>
    rw [hls] at hi
    simp at hi
  | cons a rest =>
    rw [hls] at hi hsucc
    obtain ⟨j, hj1, hj2⟩ := collapseAux_preserves rest a i l hi hl hsucc
    subst hfst
    refine ⟨j, ?_⟩
    rw [hls, show collapse (a :: rest) = collapseAux a rest from rfl]
    exact pass2_preserves jc (collapseAux a rest) j l hj1 hl hj2

/-- C8 amended, witness: the junk-free line `"x "` of `"x \nb"` (whose
successor `"b"` is junk-free too) survives formatting verbatim. -/
theorem c8_no_junk_line_preserved_witness :
    ((linesOf "x \nb".data)[0]? = some "x ".data ∧ noJunk "x ".data = true ∧
      formatLines 3 (linesOf "x \nb".data) = some ["x ".data, "b".data]) ∧
      ∃ j : Nat, (["x ".data, "b".data] : List (List Char))[j]? = some "x ".data :=
  ⟨⟨by decide, by decide, by decide⟩,
    c8_no_junk_line_preserved 3 "x \nb".data 0 "x ".data ["x ".data, "b".data]
      (by decide) (by decide) (Or.inr ⟨"b".data, by decide, by decide⟩)
      (by decide)⟩

/-- C8 counterexample: the input line `"x "` ends in whitespace and
contains no junk characters, yet it does not appear in the output of
`format "x \n  {b"`: the following line's leading junk `"{"` is
propagated backward onto it and it is then repositioned into
`"x" ++ 119 spaces ++ "{"`. -/
theorem c8_no_junk_line_modified :
    noJunk "x ".data = true ∧
      (linesOf "x \n  \x7bb".data)[0]? = some "x ".data ∧
      formatD "x \n  \x7bb".data =
        some ("x".data ++ List.replicate 119 ' ' ++ "\x7b\n  b".data) ∧
      "x ".data ∉ linesOf ("x".data ++ List.replicate 119 ' ' ++ "\x7b\n  b".data) := by
  refine ⟨by decide, by decide, by decide, by decide⟩

end Pfmt
